import Mathlib

/-!
Verification development for the AI_Quant data-quality pipeline.

The definitions below are a shallow embedding of the Python sources:
dates are encoded as natural numbers (YYYYMMDD literals preserve the
calendar order used by the code), prices as rationals, pandas float
columns that can hold NaN or an infinity as an explicit `PFloat` type, and
the f-string `details` payloads as a structured `Details` type that
records exactly the values the corresponding f-string interpolates.
-/

namespace AIQuant

/-- One daily bar row, as stored in a `daily_bar_*` table
(models.py, `DailyBarMixin`): symbol is carried separately by the
queries, so a bar holds trade_date and the OHLCV columns. The column
named `open` in the source is `open_` here because `open` is a Lean
keyword. -/
structure Bar where
  trade_date : Nat
  open_ : ℚ
  high : ℚ
  low : ℚ
  close : ℚ
  volume : ℤ
deriving DecidableEq, Repr

/-- A pandas float value as produced by `Series.pct_change().abs()`:
either NaN (first row, or 0/0), +inf (division of a nonzero number by
zero, after `abs`), or an ordinary finite value. -/
inductive PFloat where
  | nan : PFloat
  | inf : PFloat
  | val : ℚ → PFloat
deriving DecidableEq, Repr

/-- Absolute value on ℚ, written out so that it evaluates by kernel
reduction (the `.abs()` of a pandas float column). -/
def ratAbs (q : ℚ) : ℚ := if q < 0 then -q else q

/-- `daily_df['close'].pct_change().abs()` for one row: the absolute
relative change from the previous close, with pandas semantics at a
zero previous close ((c-0)/0 is +-inf for c nonzero, NaN for c = 0). -/
def pct_change_abs (prev cur : ℚ) : PFloat :=
  if prev = 0 then (if cur = 0 then PFloat.nan else PFloat.inf)
  else PFloat.val (ratAbs ((cur - prev) / prev))

/-- `pd.notna(x) and x > t` for a pandas float `x` (cleaner.py line 59):
NaN fails `notna`, +inf exceeds every finite threshold. -/
def pfloat_notna_gt (p : PFloat) (t : ℚ) : Bool :=
  match p with
  | PFloat.nan => false
  | PFloat.inf => true
  | PFloat.val q => decide (t < q)

/-- The payload of an issue's `details` f-string, keeping the
interpolated values instead of the rendered text: one constructor per
f-string in cleaner.py. -/
inductive Details where
  | ohlc : ℚ → ℚ → ℚ → ℚ → Details
  | pctWithFactor : PFloat → Details
  | pctOnly : PFloat → Details
  | closes : ℚ → ℚ → Details
  | text : String → Details
deriving DecidableEq, Repr

/-- An issue draft as built inside `find_data_issues` /
`cross_validate_symbol`, before the caller stamps symbol and
check_type onto it. -/
structure Issue where
  trade_date : Nat
  issue : String
  severity : String
  details : Details
deriving DecidableEq, Repr

/-- An issue after `clean_symbol` / `cross_validate_symbol` add the
`symbol` and `check_type` fields. -/
structure FinalIssue where
  symbol : String
  check_type : String
  trade_date : Nat
  issue : String
  severity : String
  details : Details
deriving DecidableEq, Repr

/-- Stamp symbol and check_type onto an issue draft (the
`for issue in issues: issue['symbol'] = ...` loops). -/
def tagIssue (symbol check_type : String) (i : Issue) : FinalIssue :=
  ⟨symbol, check_type, i.trade_date, i.issue, i.severity, i.details⟩

/-- Maximum of a list of dates, `None` on the empty list (the SQL
`max` aggregate / `Series.max()`). -/
def maxNat : List Nat → Option Nat
  | [] => none
  | x :: xs =>
    match maxNat xs with
    | none => some x
    | some m => some (max x m)

/-- Minimum of a list of dates, `None` on the empty list. -/
def minNat : List Nat → Option Nat
  | [] => none
  | x :: xs =>
    match minNat xs with
    | none => some x
    | some m => some (min x m)

/-- Stable sort ascending by `key`: the `ORDER BY trade_date ASC` of
the queries and pandas `sort_index` / `sort_values`. -/
def sortLeBy {α : Type} (key : α → Nat) (l : List α) : List α :=
  List.insertionSort (fun a b => key a ≤ key b) l

/-- Pair every row of the frame with its predecessor row (`None` for
the first row), the alignment `pct_change` uses. -/
def pairWithPrev (daily : List Bar) : List (Bar × Option Bar) :=
  daily.zip (none :: daily.map some)

/-- The issues cleaner.py lines 55-63 append for one row of
`target_df`, given the row's `pct_change` value and the set of factor
dates: the price-sanity check, then the volatility-spike check. -/
def rowIssues (factor_dates : List Nat) (b : Bar) (pct : PFloat) : List Issue :=
  (if b.low ≤ 0 ∨ b.high ≤ 0 ∨ b.open_ ≤ 0 ∨ b.close ≤ 0 ∨ b.high < b.low then
    [⟨b.trade_date, "价格异常", "Error", Details.ohlc b.open_ b.high b.low b.close⟩]
  else [])
  ++ (if pfloat_notna_gt pct (30 / 100) then
        (if b.trade_date ∈ factor_dates then
          [⟨b.trade_date, "价格突变", "Warning", Details.pctWithFactor pct⟩]
        else
          [⟨b.trade_date, "价格突变", "Error", Details.pctOnly pct⟩])
      else [])

/-- cleaner.py `find_data_issues(daily_df, factor_df, check_from_date)`.
`daily` is the frame's rows in frame order; `factor_dates` is the
`trade_date` column of `factor_df` (only its membership is used, as a
set). `pct_change` is computed over the whole frame, the per-row checks
run only over `target_df`, the rows at or after `check_from_date`
(no filter when it is `None`). -/
def find_data_issues (daily : List Bar) (factor_dates : List Nat)
    (check_from_date : Option Nat) : List Issue :=
  if daily = [] then []
  else
    let rows : List (Bar × Option Bar) := pairWithPrev daily
    let target : List (Bar × Option Bar) :=
      match check_from_date with
      | some cf => rows.filter (fun r => cf ≤ r.1.trade_date)
      | none => rows
    target.flatMap (fun r =>
      rowIssues factor_dates r.1
        (match r.2 with
         | none => PFloat.nan
         | some p => pct_change_abs p.close r.1.close))

/-- cleaner.py `get_data_for_cleaning(symbol, session, bar_model,
start_date)`: all bars of the symbol ordered by trade_date ascending;
with a `start_date`, only the bars at or after the latest trade_date
strictly before `start_date`. When no bar precedes `start_date` the
scalar subquery is SQL NULL, the comparison `trade_date >= NULL` is
never true, and the query returns no rows. -/
def get_data_for_cleaning (bars : List Bar) (start_date : Option Nat) : List Bar :=
  match start_date with
  | none => sortLeBy (fun b => b.trade_date) bars
  | some s =>
    match maxNat ((bars.filter (fun b => b.trade_date < s)).map (fun b => b.trade_date)) with
    | none => []
    | some p => sortLeBy (fun b => b.trade_date) (bars.filter (fun b => p ≤ b.trade_date))

/-- cleaner.py `clean_symbol`: returns the tagged issues together with
the watermark value the function hands to `update_cleaning_log`
(`None` when the early return is taken and no watermark write is
requested). The `update_cleaning_log` call itself fails at runtime
(see `worker_clean_run` below); this definition models the data the
call site computes and requests. -/
def clean_symbol (symbol : String) (bars : List Bar) (factor_dates : List Nat)
    (last_cleaned_date : Option Nat) (full_recheck : Bool) :
    List FinalIssue × Option Nat :=
  let start_date := if full_recheck then none else last_cleaned_date
  let daily := get_data_for_cleaning bars start_date
  if daily = [] ∨ (start_date.isSome ∧ daily.length ≤ 1) then ([], none)
  else
    let dates := daily.map (fun b => b.trade_date)
    let check_from_date :=
      if full_recheck then (minNat dates).getD 0
      else
        match last_cleaned_date with
        | none => (minNat dates).getD 0
        | some d => d
    let issues := find_data_issues daily factor_dates (some check_from_date)
    (issues.map (tagIssue symbol "single_source"), some ((maxNat dates).getD 0))

/-- Number of parameters of storage.py's
`update_cleaning_log(symbol, latest_date, session)` (line 84). -/
def update_cleaning_log_param_count : Nat := 3

/-- Number of arguments cleaner.py line 81 passes in
`update_cleaning_log(symbol, source_name, latest_date_in_df, session)`. -/
def update_cleaning_log_arg_count : Nat := 4

/-- Calling storage.py's `update_cleaning_log`: Python raises
`TypeError` before the body runs when the argument count does not
match the parameter list (the function has no defaults or varargs).
On success the watermark for the symbol becomes the passed date. -/
def call_update_cleaning_log (latest_date : Nat) : Except Unit (Option Nat) :=
  if update_cleaning_log_arg_count = update_cleaning_log_param_count then
    Except.ok (some latest_date)
  else
    Except.error ()

/-- cleaner.py `worker_clean`: reads the watermark (`log`), runs
`clean_symbol`, and commits. `clean_symbol`'s call to
`update_cleaning_log` is executed through `call_update_cleaning_log`;
any exception is caught, the session is rolled back (the watermark
keeps its prior value) and `[]` is returned. Result: (issues returned
to the orchestrator, watermark after the worker's commit/rollback). -/
def worker_clean_run (symbol : String) (bars : List Bar) (factor_dates : List Nat)
    (log : Option Nat) (full_recheck : Bool) : List FinalIssue × Option Nat :=
  let last_cleaned_date := if full_recheck then none else log
  let (issues, requested) := clean_symbol symbol bars factor_dates last_cleaned_date full_recheck
  match requested with
  | none => (issues, log)
  | some d =>
    match call_update_cleaning_log d with
    | Except.ok wm => (issues, wm)
    | Except.error _ => ([], log)

/-- One row of the outer-joined two-provider frame: a trade date and
the (possibly NaN, here `Option`) close from each provider. -/
structure MergedRow where
  trade_date : Nat
  close_ak : Option ℚ
  close_bk : Option ℚ
deriving DecidableEq, Repr

/-- Close of the bar at date `d` in a key-unique bar list, `None` when
the date is absent (a NaN cell after the outer join). -/
def lookupClose (df : List Bar) (d : Nat) : Option ℚ :=
  (df.find? (fun b => b.trade_date = d)).map (fun b => b.close)

/-- `pd.merge(df_ak, df_bk, on='trade_date', how='outer')` followed by
`sort_values('trade_date')`, for frames whose trade_date column is
key-unique (both tables have primary key (symbol, trade_date)): one
row per date present in either frame, ascending by date. -/
def merge_outer (df_ak df_bk : List Bar) : List MergedRow :=
  let dates : List Nat :=
    sortLeBy (fun d => d)
      ((df_ak.map (fun b => b.trade_date) ++ df_bk.map (fun b => b.trade_date)).dedup)
  dates.map (fun d => ⟨d, lookupClose df_ak d, lookupClose df_bk d⟩)

/-- The per-row issues of cleaner.py lines 116-129: price comparison
when both closes are present, one-sided-missing warnings otherwise. -/
def reconcileRow (suspension_dates : List Nat) (r : MergedRow) : List Issue :=
  match r.close_ak, r.close_bk with
  | some a, some b =>
    let price_diff : ℚ := if a ≠ 0 then ratAbs (a - b) / a else 0
    if price_diff > 1 / 1000 then
      [⟨r.trade_date, "价格不一致", "Error", Details.closes a b⟩]
    else []
  | some _, none =>
    if r.trade_date ∈ suspension_dates then []
    else [⟨r.trade_date, "单方面数据缺失", "Warning", Details.text "baostock 源缺失该日数据"⟩]
  | none, some _ =>
    if r.trade_date ∈ suspension_dates then []
    else [⟨r.trade_date, "单方面数据缺失", "Warning", Details.text "akshare 源缺失该日数据"⟩]
  | none, none => []

/-- The calendar-gap issues of cleaner.py lines 130-139: calendar
dates inside [min, max] of the joined frame (a set, so each date at
most once) that are absent from the joined frame and are not
suspension dates. -/
def calendarGapIssues (suspension_dates : List Nat) (calendar : List Nat)
    (merged : List MergedRow) : List Issue :=
  if calendar = [] then []
  else
    let actual : List Nat := merged.map (fun r => r.trade_date)
    let start_date := (minNat actual).getD 0
    let end_date := (maxNat actual).getD 0
    let expected : List Nat :=
      (calendar.filter (fun d => start_date ≤ d ∧ d ≤ end_date)).dedup
    let missing : List Nat :=
      sortLeBy (fun d => d) (expected.filter (fun d => ¬ d ∈ actual))
    missing.flatMap (fun d =>
      if d ∈ suspension_dates then []
      else [⟨d, "双方数据缺失", "Critical", Details.text "akshare 和 baostock 均缺失该交易日数据"⟩])

/-- cleaner.py `cross_validate_symbol`: both providers' bar series for
one symbol, the suspension-date set and the cached trading calendar;
emits per-row issues then calendar-gap issues, all tagged
check_type = cross_validation. -/
def cross_validate_symbol (symbol : String) (df_ak df_bk : List Bar)
    (suspension_dates : List Nat) (calendar : List Nat) : List FinalIssue :=
  if df_ak = [] ∧ df_bk = [] then []
  else
    let merged := merge_outer df_ak df_bk
    let issues :=
      merged.flatMap (reconcileRow suspension_dates)
        ++ calendarGapIssues suspension_dates calendar merged
    issues.map (tagIssue symbol "cross_validation")

/-- One row returned by `bs.query_adjust_factor` (baostock_source.py
step 2): the ex-date and the raw single-day fore/back adjust factors. -/
structure FactorEvent where
  dividOperateDate : Nat
  foreAdjustFactor : ℚ
  backAdjustFactor : ℚ
deriving DecidableEq, Repr

/-- The per-day forward ratio column `forward_factor_discrete`
(baostock_source.py line 111): the reciprocal of `foreAdjustFactor` on
an event date, 1.0 elsewhere (the `fillna(1.0)`). -/
def forward_factor_discrete (events : List FactorEvent) (d : Nat) : ℚ :=
  match events.find? (fun e => e.dividOperateDate = d) with
  | some e => 1 / e.foreAdjustFactor
  | none => 1

/-- The per-day backward ratio column `back_factor_discrete`
(baostock_source.py line 112): the raw `backAdjustFactor` on an event
date, 1.0 elsewhere. -/
def back_factor_discrete (events : List FactorEvent) (d : Nat) : ℚ :=
  match events.find? (fun e => e.dividOperateDate = d) with
  | some e => e.backAdjustFactor
  | none => 1

/-- pandas `Series.cumprod()`: entry i is the product of the first
i+1 entries. -/
def cumprod (l : List ℚ) : List ℚ :=
  (List.range l.length).map (fun i => (l.take (i + 1)).prod)

/-- baostock_source.py `BaostockSource.fetch_factors`, the pure core
after the provider calls: `skeleton_raw` is the instrument's trading
dates (step 1, sorted ascending by `sort_index`), `events` the sparse
adjust-factor rows. With no events both outputs are identically 1.0
(the early return); otherwise the forward series is the cumulative
product of the per-day forward ratios taken newest-to-oldest (sort
descending, cumprod, restore ascending order) and the backward series
the cumulative product of the per-day backward ratios oldest-to-newest.
Result: the (trade_date, forward_factor) and (trade_date, back_factor)
frames, ascending by date. -/
def skeleton_days (skeleton_raw : List Nat) : List Nat :=
  sortLeBy (fun d => d) skeleton_raw

def fetch_factors (skeleton_raw : List Nat) (events : List FactorEvent) :
    List (Nat × ℚ) × List (Nat × ℚ) :=
  let days := skeleton_days skeleton_raw
  if events = [] then
    (days.map (fun d => (d, 1)), days.map (fun d => (d, 1)))
  else
    let descending := days.reverse
    let fwd := (cumprod (descending.map (forward_factor_discrete events))).reverse
    let bck := cumprod (days.map (back_factor_discrete events))
    (days.zip fwd, days.zip bck)

/-- One row of the `daily_bar` table written by storage.py
`upsert_bars` (symbol is the function's argument, the rest comes from
the fetched frame). -/
structure BarRow where
  symbol : String
  trade_date : Nat
  open_ : ℚ
  high : ℚ
  low : ℚ
  close : ℚ
  volume : ℤ
deriving DecidableEq, Repr

/-- Whether two rows collide on the `(symbol, trade_date)` key. -/
def sameKey (a b : BarRow) : Bool :=
  a.symbol = b.symbol ∧ a.trade_date = b.trade_date

/-- storage.py `upsert_bars`: `INSERT ... ON CONFLICT (symbol,
trade_date) DO NOTHING`. PostgreSQL processes the VALUES rows in
order; a row whose key already exists in the table (or was inserted
earlier in the same statement) is skipped, otherwise it is appended.
An empty frame is a no-op (`if not data: return`). -/
def upsert_bars (incoming : List BarRow) (table : List BarRow) : List BarRow :=
  incoming.foldl
    (fun t r => if t.any (fun x => sameKey x r) then t else t ++ [r]) table

/-! ### Helper lemmas: sorting, minima and maxima -/

theorem sortLeBy_perm {α : Type} (key : α → Nat) (l : List α) :
    List.Perm (sortLeBy key l) l :=
  List.perm_insertionSort _ l

theorem mem_sortLeBy {α : Type} (key : α → Nat) (l : List α) (a : α) :
    a ∈ sortLeBy key l ↔ a ∈ l :=
  (sortLeBy_perm key l).mem_iff

theorem sortLeBy_sorted {α : Type} (key : α → Nat) (l : List α) :
    (sortLeBy key l).Sorted (fun a b => key a ≤ key b) := by
  haveI : IsTotal α (fun a b => key a ≤ key b) := ⟨fun a b => Nat.le_total _ _⟩
  haveI : IsTrans α (fun a b => key a ≤ key b) :=
    ⟨fun _ _ _ h1 h2 => Nat.le_trans h1 h2⟩
  exact List.sorted_insertionSort _ l

theorem sortLeBy_map_key_perm {α : Type} (key : α → Nat) (l : List α) :
    List.Perm ((sortLeBy key l).map key) (l.map key) :=
  (sortLeBy_perm key l).map key

theorem sortDates_sorted_lt (l : List Nat) (hnd : l.Nodup) :
    (sortLeBy (fun d => d) l).Sorted (· < ·) := by
  have hs := sortLeBy_sorted (fun d => d) l
  exact List.Sorted.lt_of_le hs ((sortLeBy_perm _ l).nodup_iff.mpr hnd)

theorem maxNat_eq_none_iff (l : List Nat) : maxNat l = none ↔ l = [] := by
  cases l with
  | nil => simp [maxNat]
  | cons x xs =>
    simp only [maxNat]
    cases maxNat xs <;> simp

theorem maxNat_mem (l : List Nat) (m : Nat) (h : maxNat l = some m) : m ∈ l := by
  induction l generalizing m with
  | nil => simp [maxNat] at h
  | cons x xs ih =>
    simp only [maxNat] at h
    cases hx : maxNat xs with
    | none =>
      rw [hx] at h
      simp only [Option.some.injEq] at h
      exact h ▸ List.mem_cons_self x xs
    | some m' =>
      rw [hx] at h
      simp only [Option.some.injEq] at h
      rcases Nat.le_total x m' with hle | hle
      · have hm : m = m' := by omega
        exact List.mem_cons_of_mem x (hm ▸ ih m' hx)
      · have hm : m = x := by omega
        exact hm ▸ List.mem_cons_self x xs

theorem le_maxNat (l : List Nat) (m : Nat) (h : maxNat l = some m) :
    ∀ x ∈ l, x ≤ m := by
  induction l generalizing m with
  | nil => simp
  | cons y ys ih =>
    simp only [maxNat] at h
    intro x hx
    rcases List.mem_cons.mp hx with rfl | hxs
    · cases hy : maxNat ys with
      | none =>
        rw [hy] at h
        simp only [Option.some.injEq] at h
        omega
      | some m' =>
        rw [hy] at h
        simp only [Option.some.injEq] at h
        omega
    · cases hy : maxNat ys with
      | none =>
        exact absurd hxs (by simp [(maxNat_eq_none_iff ys).mp hy])
      | some m' =>
        rw [hy] at h
        simp only [Option.some.injEq] at h
        have := ih m' hy x hxs
        omega

theorem maxNat_eq_some_of_mem_ub (l : List Nat) (d : Nat) (hd : d ∈ l)
    (hub : ∀ x ∈ l, x ≤ d) : maxNat l = some d := by
  cases hm : maxNat l with
  | none =>
    rw [maxNat_eq_none_iff] at hm
    subst hm
    simp at hd
  | some m =>
    have h1 : m ≤ d := hub m (maxNat_mem l m hm)
    have h2 : d ≤ m := le_maxNat l m hm d hd
    exact congrArg some (by omega)

theorem minNat_eq_none_iff (l : List Nat) : minNat l = none ↔ l = [] := by
  cases l with
  | nil => simp [minNat]
  | cons x xs =>
    simp only [minNat]
    cases minNat xs <;> simp

theorem minNat_mem (l : List Nat) (m : Nat) (h : minNat l = some m) : m ∈ l := by
  induction l generalizing m with
  | nil => simp [minNat] at h
  | cons x xs ih =>
    simp only [minNat] at h
    cases hx : minNat xs with
    | none =>
      rw [hx] at h
      simp only [Option.some.injEq] at h
      exact h ▸ List.mem_cons_self x xs
    | some m' =>
      rw [hx] at h
      simp only [Option.some.injEq] at h
      rcases Nat.le_total x m' with hle | hle
      · have hm : m = x := by omega
        exact hm ▸ List.mem_cons_self x xs
      · have hm : m = m' := by omega
        exact List.mem_cons_of_mem x (hm ▸ ih m' hx)

theorem minNat_le (l : List Nat) (m : Nat) (h : minNat l = some m) :
    ∀ x ∈ l, m ≤ x := by
  induction l generalizing m with
  | nil => simp
  | cons y ys ih =>
    simp only [minNat] at h
    intro x hx
    rcases List.mem_cons.mp hx with rfl | hxs
    · cases hy : minNat ys with
      | none =>
        rw [hy] at h
        simp only [Option.some.injEq] at h
        omega
      | some m' =>
        rw [hy] at h
        simp only [Option.some.injEq] at h
        omega
    · cases hy : minNat ys with
      | none =>
        exact absurd hxs (by simp [(minNat_eq_none_iff ys).mp hy])
      | some m' =>
        rw [hy] at h
        simp only [Option.some.injEq] at h
        have := ih m' hy x hxs
        omega

/-! ### Helper lemmas: where issues can live in a flatMap -/

theorem rowIssues_trade_date (fd : List Nat) (b : Bar) (p : PFloat) :
    ∀ is ∈ rowIssues fd b p, is.trade_date = b.trade_date := by
  intro is his
  unfold rowIssues at his
  rcases List.mem_append.mp his with h | h
  · split at h <;> simp_all
  · split at h
    · split at h <;> simp_all
    · simp at h

theorem rowIssues_kind (fd : List Nat) (b : Bar) (p : PFloat) :
    ∀ is ∈ rowIssues fd b p, is.issue = "价格异常" ∨ is.issue = "价格突变" := by
  intro is his
  unfold rowIssues at his
  rcases List.mem_append.mp his with h | h
  · split at h <;> simp_all
  · split at h
    · split at h <;> simp_all
    · simp at h

theorem reconcileRow_trade_date (susp : List Nat) (r : MergedRow) :
    ∀ is ∈ reconcileRow susp r, is.trade_date = r.trade_date := by
  intro is his
  unfold reconcileRow at his
  rcases r with ⟨d, ca, cb⟩
  rcases ca with _ | a <;> rcases cb with _ | b <;> simp only at his
  · simp at his
  · split at his <;> simp_all
  · split at his <;> simp_all
  · split at his <;> simp_all

/-- If every issue produced for a list element carries that element's
key, and the sought key is absent from the list, the flatMap contains
no issue matching a key-pinned predicate. -/
theorem flatMap_filter_eq_nil {α : Type} (f : α → List Issue) (dt : α → Nat)
    (p : Issue → Bool) (d0 : Nat) (l : List α)
    (hf : ∀ a ∈ l, ∀ is ∈ f a, is.trade_date = dt a)
    (hp : ∀ is, p is = true → is.trade_date = d0)
    (habs : ¬ d0 ∈ l.map dt) :
    (l.flatMap f).filter p = [] := by
  induction l with
  | nil => simp
  | cons a rest ih =>
    rw [List.flatMap_cons, List.filter_append]
    have h1 : (f a).filter p = [] := by
      rw [List.filter_eq_nil_iff]
      intro is his
      intro hptrue
      have hda : is.trade_date = dt a := hf a (List.mem_cons_self a rest) is his
      have hd0 : is.trade_date = d0 := hp is hptrue
      exact habs (by simp only [List.map_cons, List.mem_cons]; left; omega)
    rw [h1, List.nil_append]
    exact ih (fun x hx => hf x (List.mem_cons_of_mem a hx))
      (fun hd => habs (by simp only [List.map_cons, List.mem_cons]; right; exact hd))

/-- If the element keys are distinct, a key-pinned filter over the
flatMap sees only the issues of the unique element with that key. -/
theorem flatMap_filter_eq_of_nodup {α : Type} (f : α → List Issue) (dt : α → Nat)
    (p : Issue → Bool) (l : List α)
    (hf : ∀ a ∈ l, ∀ is ∈ f a, is.trade_date = dt a)
    (hnd : (l.map dt).Nodup)
    (e : α) (he : e ∈ l)
    (hp : ∀ is, p is = true → is.trade_date = dt e) :
    (l.flatMap f).filter p = (f e).filter p := by
  induction l with
  | nil => simp at he
  | cons a rest ih =>
    rw [List.flatMap_cons, List.filter_append]
    rw [List.map_cons, List.nodup_cons] at hnd
    rcases List.mem_cons.mp he with rfl | hrest
    · have h2 : (rest.flatMap f).filter p = [] :=
        flatMap_filter_eq_nil f dt p (dt e) rest
          (fun x hx => hf x (List.mem_cons_of_mem e hx)) hp hnd.1
      rw [h2, List.append_nil]
    · have hda : ¬ dt a = dt e := by
        intro hcontra
        exact hnd.1 (hcontra ▸ List.mem_map_of_mem dt hrest)
      have h1 : (f a).filter p = [] := by
        rw [List.filter_eq_nil_iff]
        intro is his hptrue
        have := hf a (List.mem_cons_self a rest) is his
        have := hp is hptrue
        omega
      rw [h1, List.nil_append]
      exact ih (fun x hx => hf x (List.mem_cons_of_mem a hx)) hnd.2 hrest

/-! ### Structural lemmas about the single-source Rule Engine -/

theorem pairWithPrev_map_fst (daily : List Bar) :
    (pairWithPrev daily).map Prod.fst = daily := by
  unfold pairWithPrev
  apply List.map_fst_zip
  simp

theorem pairWithPrev_length (daily : List Bar) :
    (pairWithPrev daily).length = daily.length := by
  unfold pairWithPrev
  simp

/-- The pct value `find_data_issues` feeds to the per-row checks. -/
def rowPct (r : Bar × Option Bar) : PFloat :=
  match r.2 with
  | none => PFloat.nan
  | some p => pct_change_abs p.close r.1.close

theorem find_data_issues_eq_flatMap (daily : List Bar) (fd : List Nat)
    (cfo : Option Nat) (hne : daily ≠ []) :
    find_data_issues daily fd cfo =
      (match cfo with
       | some cf => (pairWithPrev daily).filter (fun r : Bar × Option Bar => cf ≤ r.1.trade_date)
       | none => pairWithPrev daily).flatMap
        (fun r => rowIssues fd r.1 (rowPct r)) := by
  unfold find_data_issues
  rw [if_neg hne]
  rfl

/-- Every issue of `find_data_issues` concerns a trade date of the
frame, has one of the two single-source kinds, and (when a
`check_from_date` is given) lies at or after it. -/
theorem find_data_issues_shape (daily : List Bar) (fd : List Nat)
    (cfo : Option Nat) :
    ∀ is ∈ find_data_issues daily fd cfo,
      is.trade_date ∈ daily.map (fun b => b.trade_date) ∧
      (is.issue = "价格异常" ∨ is.issue = "价格突变") ∧
      (∀ cf, cfo = some cf → cf ≤ is.trade_date) := by
  intro is his
  rcases eq_or_ne daily ([] : List Bar) with rfl | hne
  · simp [find_data_issues] at his
  rw [find_data_issues_eq_flatMap daily fd cfo hne] at his
  rcases List.mem_flatMap.mp his with ⟨r, hr, hisr⟩
  have hdate : is.trade_date = r.1.trade_date := rowIssues_trade_date fd r.1 _ is hisr
  have hkind := rowIssues_kind fd r.1 _ is hisr
  have hrrows : r ∈ pairWithPrev daily ∧ ∀ cf, cfo = some cf → cf ≤ r.1.trade_date := by
    cases cfo with
    | none => exact ⟨hr, by simp⟩
    | some cf =>
      rcases List.mem_filter.mp hr with ⟨hr1, hr2⟩
      refine ⟨hr1, ?_⟩
      intro cf' hcf'
      cases hcf'
      exact Nat.le_of_ble_eq_true (by simpa using hr2)
  refine ⟨?_, hkind, ?_⟩
  · rw [hdate]
    rw [← pairWithPrev_map_fst daily]
    rw [List.map_map]
    exact List.mem_map_of_mem _ hrrows.1
  · intro cf hcf
    rw [hdate]
    exact hrrows.2 cf hcf

theorem target_map_date_nodup (daily : List Bar) (cfo : Option Nat)
    (hnd : (daily.map (fun b => b.trade_date)).Nodup) :
    ((match cfo with
      | some cf => (pairWithPrev daily).filter (fun r : Bar × Option Bar => cf ≤ r.1.trade_date)
      | none => pairWithPrev daily).map (fun r : Bar × Option Bar => r.1.trade_date)).Nodup := by
  have hrows : ((pairWithPrev daily).map (fun r : Bar × Option Bar => r.1.trade_date)).Nodup := by
    have : (pairWithPrev daily).map (fun r : Bar × Option Bar => r.1.trade_date)
        = ((pairWithPrev daily).map Prod.fst).map (fun b => b.trade_date) := by
      rw [List.map_map]
      rfl
    rw [this, pairWithPrev_map_fst]
    exact hnd
  cases cfo with
  | none => exact hrows
  | some cf =>
    exact ((List.filter_sublist _).map _).nodup hrows

/-- The key characterization: with key-unique trade dates, a filter
pinned to the date of one frame row sees exactly the issues that row
itself produces. -/
theorem find_data_issues_filter_at (daily : List Bar) (fd : List Nat)
    (cfo : Option Nat) (hnd : (daily.map (fun b => b.trade_date)).Nodup)
    (r : Bar × Option Bar) (hr : r ∈ pairWithPrev daily)
    (hwin : ∀ cf, cfo = some cf → cf ≤ r.1.trade_date)
    (p : Issue → Bool) (hp : ∀ is, p is = true → is.trade_date = r.1.trade_date) :
    (find_data_issues daily fd cfo).filter p = (rowIssues fd r.1 (rowPct r)).filter p := by
  have hne : daily ≠ [] := by
    intro hcontra
    subst hcontra
    simp [pairWithPrev] at hr
  rw [find_data_issues_eq_flatMap daily fd cfo hne]
  have htgt : r ∈ (match cfo with
      | some cf => (pairWithPrev daily).filter (fun r : Bar × Option Bar => cf ≤ r.1.trade_date)
      | none => pairWithPrev daily) := by
    cases cfo with
    | none => exact hr
    | some cf =>
      apply List.mem_filter.mpr
      exact ⟨hr, by simpa using hwin cf rfl⟩
  exact flatMap_filter_eq_of_nodup _ (fun r => r.1.trade_date) p _
    (fun a _ => rowIssues_trade_date fd a.1 (rowPct a))
    (target_map_date_nodup daily cfo hnd) r htgt hp

theorem pairWithPrev_getElem_zero (daily : List Bar) (h0 : 0 < daily.length)
    (hlen : 0 < (pairWithPrev daily).length) :
    (pairWithPrev daily)[0] = (daily[0], none) := by
  unfold pairWithPrev
  rw [List.getElem_zip]
  simp

theorem pairWithPrev_getElem_succ (daily : List Bar) (i : Nat)
    (hi : i + 1 < daily.length)
    (hlen : i + 1 < (pairWithPrev daily).length) :
    (pairWithPrev daily)[i + 1] = (daily[i + 1], some daily[i]) := by
  unfold pairWithPrev
  rw [List.getElem_zip]
  congr 1
  have hb1 : i + 1 < (none :: daily.map some).length := by
    simp
    omega
  have hb2 : i < (daily.map some).length := by
    simp
    omega
  have h : (none :: daily.map some)[i + 1] = (daily.map some)[i] := by
    simp
  rw [h, List.getElem_map]

/-! ### C8: price-sanity rule -/

theorem filter_rowIssues_anomaly (fd : List Nat) (b : Bar) (pv : PFloat)
    (hcond' : b.low ≤ 0 ∨ b.high ≤ 0 ∨ b.open_ ≤ 0 ∨ b.close ≤ 0 ∨ b.high < b.low) :
    (rowIssues fd b pv).filter
        (fun is => decide (is.trade_date = b.trade_date ∧ is.issue = "价格异常"))
      = [⟨b.trade_date, "价格异常", "Error", Details.ohlc b.open_ b.high b.low b.close⟩] := by
  have hne : ("价格突变" : String) ≠ "价格异常" := by decide
  unfold rowIssues
  rw [if_pos hcond', List.filter_append]
  have h2 : List.filter
      (fun is : Issue => decide (is.trade_date = b.trade_date ∧ is.issue = "价格异常"))
      (if pfloat_notna_gt pv (30 / 100) = true then
        (if b.trade_date ∈ fd then
          [⟨b.trade_date, "价格突变", "Warning", Details.pctWithFactor pv⟩]
        else
          [⟨b.trade_date, "价格突变", "Error", Details.pctOnly pv⟩])
      else []) = [] := by
    split
    · split <;> simp [hne]
    · simp
  rw [h2]
  simp

/-- C8. For every bar in the reporting window where low > high or any
of open/high/low/close ≤ 0, the Rule Engine emits exactly one Error
issue of kind "价格异常" ("price anomaly") for that trade date, whose
details carry the O/H/L/C values, regardless of surrounding data. -/
theorem price_anomaly_exactly_one (daily : List Bar) (fd : List Nat)
    (cfo : Option Nat) (hnd : (daily.map (fun b => b.trade_date)).Nodup)
    (b : Bar) (hb : b ∈ daily)
    (hcond : b.high < b.low ∨ b.open_ ≤ 0 ∨ b.high ≤ 0 ∨ b.low ≤ 0 ∨ b.close ≤ 0)
    (hwin : ∀ cf, cfo = some cf → cf ≤ b.trade_date) :
    (find_data_issues daily fd cfo).filter
        (fun is => decide (is.trade_date = b.trade_date ∧ is.issue = "价格异常"))
      = [⟨b.trade_date, "价格异常", "Error", Details.ohlc b.open_ b.high b.low b.close⟩] := by
  obtain ⟨i, hi, hbi⟩ := List.getElem_of_mem hb
  have hlen : i < (pairWithPrev daily).length := by rw [pairWithPrev_length]; exact hi
  have hrmem : (pairWithPrev daily)[i] ∈ pairWithPrev daily := List.getElem_mem hlen
  have hfst : ((pairWithPrev daily)[i]).1 = b := by
    unfold pairWithPrev
    rw [List.getElem_zip]
    exact hbi
  have hstep := find_data_issues_filter_at daily fd cfo hnd _ hrmem
    (by rw [hfst]; exact hwin)
    (fun is => decide (is.trade_date = b.trade_date ∧ is.issue = "价格异常"))
    (by intro is his; rw [hfst]; exact (of_decide_eq_true his).1)
  rw [hstep, hfst]
  apply filter_rowIssues_anomaly
  tauto

/-- C8 witness: a bar with low 6 above high 4 inside the window. -/
theorem price_anomaly_exactly_one_witness :
    (find_data_issues [⟨1, 10, 10, 10, 10, 1⟩, ⟨2, 5, 4, 6, 5, 1⟩] [] (some 1)).filter
        (fun is => decide (is.trade_date = 2 ∧ is.issue = "价格异常"))
      = [⟨2, "价格异常", "Error", Details.ohlc 5 4 6 5⟩] :=
  price_anomaly_exactly_one [⟨1, 10, 10, 10, 10, 1⟩, ⟨2, 5, 4, 6, 5, 1⟩] [] (some 1)
    (by decide) ⟨2, 5, 4, 6, 5, 1⟩ (by decide)
    (by left; norm_num)
    (by intro cf hcf; injection hcf with h; subst h; decide)

/-! ### C4: volatility-spike rule -/

theorem filter_rowIssues_jump (fd : List Nat) (b : Bar) (pv : PFloat)
    (hjump : pfloat_notna_gt pv (30 / 100) = true) :
    (rowIssues fd b pv).filter
        (fun is => decide (is.trade_date = b.trade_date ∧ is.issue = "价格突变"))
      = (if b.trade_date ∈ fd then
          [⟨b.trade_date, "价格突变", "Warning", Details.pctWithFactor pv⟩]
        else
          [⟨b.trade_date, "价格突变", "Error", Details.pctOnly pv⟩]) := by
  have hne : ("价格异常" : String) ≠ "价格突变" := by decide
  unfold rowIssues
  rw [List.filter_append, if_pos hjump]
  have h1 : List.filter
      (fun is : Issue => decide (is.trade_date = b.trade_date ∧ is.issue = "价格突变"))
      (if b.low ≤ 0 ∨ b.high ≤ 0 ∨ b.open_ ≤ 0 ∨ b.close ≤ 0 ∨ b.high < b.low then
        [⟨b.trade_date, "价格异常", "Error", Details.ohlc b.open_ b.high b.low b.close⟩]
      else []) = [] := by
    split <;> simp [hne]
  rw [h1, List.nil_append]
  split <;> simp

theorem filter_rowIssues_jump_nan (fd : List Nat) (b : Bar) :
    (rowIssues fd b PFloat.nan).filter
        (fun is => decide (is.trade_date = b.trade_date ∧ is.issue = "价格突变")) = [] := by
  have hne : ("价格异常" : String) ≠ "价格突变" := by decide
  unfold rowIssues
  rw [List.filter_append]
  have h1 : List.filter
      (fun is : Issue => decide (is.trade_date = b.trade_date ∧ is.issue = "价格突变"))
      (if b.low ≤ 0 ∨ b.high ≤ 0 ∨ b.open_ ≤ 0 ∨ b.close ≤ 0 ∨ b.high < b.low then
        [⟨b.trade_date, "价格异常", "Error", Details.ohlc b.open_ b.high b.low b.close⟩]
      else []) = [] := by
    split <;> simp [hne]
  rw [h1, List.nil_append]
  simp [pfloat_notna_gt]

theorem ratAbs_eq_abs (q : ℚ) : ratAbs q = |q| := by
  unfold ratAbs
  split
  · rw [abs_of_neg]
    assumption
  · rw [abs_of_nonneg]
    linarith

theorem pct_change_abs_of_ne_zero (prev cur : ℚ) (h0 : prev ≠ 0) :
    pct_change_abs prev cur = PFloat.val |cur / prev - 1| := by
  unfold pct_change_abs
  rw [if_neg h0, ratAbs_eq_abs]
  congr 1
  rw [sub_div, div_self h0]

/-- C4. For every bar t in the reporting window with a defined,
nonzero previous close, if the absolute relative close change
exceeds 0.30 the Rule Engine emits exactly one "价格突变"
("price jump") issue for that date — Warning when the trade date has
an adjustment-factor row, Error otherwise — and the first bar of the
series (no prior close) is never flagged. -/
theorem volatility_spike_severity (daily : List Bar) (fd : List Nat) (cf i : Nat)
    (hnd : (daily.map (fun b => b.trade_date)).Nodup)
    (hi : i + 1 < daily.length)
    (hwin : cf ≤ daily[i + 1].trade_date)
    (h0 : daily[i].close ≠ 0)
    (hj : 3 / 10 < |daily[i + 1].close / daily[i].close - 1|) :
    ((find_data_issues daily fd (some cf)).filter
        (fun is => decide (is.trade_date = daily[i + 1].trade_date ∧ is.issue = "价格突变"))
      = (if daily[i + 1].trade_date ∈ fd then
          [⟨daily[i + 1].trade_date, "价格突变", "Warning",
            Details.pctWithFactor (pct_change_abs daily[i].close daily[i + 1].close)⟩]
        else
          [⟨daily[i + 1].trade_date, "价格突变", "Error",
            Details.pctOnly (pct_change_abs daily[i].close daily[i + 1].close)⟩]))
    ∧ (find_data_issues daily fd (some cf)).filter
        (fun is => decide (is.trade_date = daily[0].trade_date ∧ is.issue = "价格突变"))
      = [] := by
  have hi2 : i < daily.length := by omega
  have h00 : 0 < daily.length := by omega
  constructor
  · have hlen : i + 1 < (pairWithPrev daily).length := by
      rw [pairWithPrev_length]; exact hi
    have hrmem : (pairWithPrev daily)[i + 1] ∈ pairWithPrev daily :=
      List.getElem_mem hlen
    have hr := pairWithPrev_getElem_succ daily i hi hlen
    have hfst : ((pairWithPrev daily)[i + 1]).1 = daily[i + 1] := by
      rw [hr]
    have hpct : rowPct ((pairWithPrev daily)[i + 1])
        = pct_change_abs daily[i].close daily[i + 1].close := by
      rw [hr]
      rfl
    have hstep := find_data_issues_filter_at daily fd (some cf) hnd _ hrmem
      (by intro cf2 hcf2; injection hcf2 with h; subst h; rw [hfst]; exact hwin)
      (fun is => decide (is.trade_date = daily[i + 1].trade_date ∧ is.issue = "价格突变"))
      (by intro is his; rw [hfst]; exact (of_decide_eq_true his).1)
    rw [hstep, hfst, hpct]
    apply filter_rowIssues_jump
    rw [pct_change_abs_of_ne_zero _ _ h0]
    unfold pfloat_notna_gt
    apply decide_eq_true
    have h30 : (30 : ℚ) / 100 = 3 / 10 := by norm_num
    rw [h30]
    exact hj
  · rcases le_or_lt cf (daily[0].trade_date) with hle | hgt
    · have hlen : 0 < (pairWithPrev daily).length := by
        rw [pairWithPrev_length]; exact h00
      have hrmem : (pairWithPrev daily)[0] ∈ pairWithPrev daily :=
        List.getElem_mem hlen
      have hr := pairWithPrev_getElem_zero daily h00 hlen
      have hfst : ((pairWithPrev daily)[0]).1 = daily[0] := by
        rw [hr]
      have hpct : rowPct ((pairWithPrev daily)[0]) = PFloat.nan := by
        rw [hr]
        rfl
      have hstep := find_data_issues_filter_at daily fd (some cf) hnd _ hrmem
        (by intro cf2 hcf2; injection hcf2 with h; subst h; rw [hfst]; exact hle)
        (fun is => decide (is.trade_date = daily[0].trade_date ∧ is.issue = "价格突变"))
        (by intro is his; rw [hfst]; exact (of_decide_eq_true his).1)
      rw [hstep, hfst, hpct]
      exact filter_rowIssues_jump_nan fd _
    · rw [List.filter_eq_nil_iff]
      intro is his hp
      have hsh := (find_data_issues_shape daily fd (some cf) is his).2.2 cf rfl
      have hd0 : is.trade_date = daily[0].trade_date := (of_decide_eq_true hp).1
      omega

/-- C4 witness: the close sequence 10, 10, 14 jumps 40% on the third
date with no factor row there, yielding one Error; the first bar is
not flagged. -/
theorem volatility_spike_severity_witness :
    ((find_data_issues [⟨1, 10, 10, 10, 10, 1⟩, ⟨2, 10, 10, 10, 10, 1⟩, ⟨3, 14, 14, 14, 14, 1⟩]
        [] (some 1)).filter (fun is => decide (is.trade_date = 3 ∧ is.issue = "价格突变"))
      = [⟨3, "价格突变", "Error", Details.pctOnly (PFloat.val (2 / 5))⟩])
    ∧ ((find_data_issues [⟨1, 10, 10, 10, 10, 1⟩, ⟨2, 10, 10, 10, 10, 1⟩, ⟨3, 14, 14, 14, 14, 1⟩]
        [] (some 1)).filter (fun is => decide (is.trade_date = 1 ∧ is.issue = "价格突变"))
      = []) := by
  have h := volatility_spike_severity
    [⟨1, 10, 10, 10, 10, 1⟩, ⟨2, 10, 10, 10, 10, 1⟩, ⟨3, 14, 14, 14, 14, 1⟩] [] 1 1
    (by decide) (by decide) (by decide)
    (show (10 : ℚ) ≠ 0 by norm_num)
    (show (3 : ℚ) / 10 < |(14 : ℚ) / 10 - 1| by
      rw [show (14 : ℚ) / 10 - 1 = 2 / 5 by norm_num]
      rw [abs_of_nonneg (by norm_num : (0 : ℚ) ≤ 2 / 5)]
      norm_num)
  have habs : pct_change_abs (10 : ℚ) 14 = PFloat.val (2 / 5) := by
    norm_num [pct_change_abs, ratAbs]
  dsimp only [List.getElem_cons_succ, List.getElem_cons_zero] at h
  rw [if_neg (by simp : ¬ (3 ∈ ([] : List Nat)))] at h
  rw [habs] at h
  exact h

/-! ### C1: the single-source engine has no calendar-continuity check -/

/-- C1 counterexample. The spec's calendar-gap scenario: bars only on
2023-01-02 and 2023-01-04 (calendar {01-02, 01-03, 01-04}, empty
suspension set), scanned full by the single-source path. The claim
demands exactly one Error "missing trading-day data" for 2023-01-03;
the scan returns no issues at all — `find_data_issues` takes neither
the calendar nor the suspension set as input. -/
theorem calendar_gap_missing_from_engine_cex :
    clean_symbol "600000"
        [⟨20230102, 10, 10, 10, 10, 100⟩, ⟨20230104, 10, 10, 10, 10, 100⟩]
        [] none true
      = ([], some 20230104) := by
  norm_num [clean_symbol, get_data_for_cleaning, sortLeBy, List.insertionSort,
    List.orderedInsert, maxNat, minNat, find_data_issues, pairWithPrev, rowIssues,
    pct_change_abs, ratAbs, pfloat_notna_gt, tagIssue]
  intro h
  simp at h

/-- C1 amended. Every issue the single-source Rule Engine emits is a
price-anomaly or price-jump issue for a trade date present in the
scanned series; calendar dates absent from the series never yield a
single-source issue (the engine has no calendar-continuity rule). -/
theorem single_source_issue_kinds (daily : List Bar) (fd : List Nat)
    (cfo : Option Nat) :
    ∀ is ∈ find_data_issues daily fd cfo,
      (is.issue = "价格异常" ∨ is.issue = "价格突变") ∧
      is.trade_date ∈ daily.map (fun b => b.trade_date) := by
  intro is his
  have h := find_data_issues_shape daily fd cfo is his
  exact ⟨h.2.1, h.1⟩

/-- C1 witness: a concrete emitted issue (a low-above-high bar) indeed
has a single-source kind and an in-series date. -/
theorem single_source_issue_kinds_witness :
    ((⟨1, "价格异常", "Error", Details.ohlc 10 4 6 10⟩ : Issue).issue = "价格异常" ∨
      (⟨1, "价格异常", "Error", Details.ohlc 10 4 6 10⟩ : Issue).issue = "价格突变") ∧
    (⟨1, "价格异常", "Error", Details.ohlc 10 4 6 10⟩ : Issue).trade_date
      ∈ [(⟨1, 10, 4, 6, 10, 1⟩ : Bar)].map (fun b => b.trade_date) :=
  single_source_issue_kinds [⟨1, 10, 4, 6, 10, 1⟩] [] none
    ⟨1, "价格异常", "Error", Details.ohlc 10 4 6 10⟩
    (by norm_num [find_data_issues, pairWithPrev, rowIssues, pct_change_abs,
      pfloat_notna_gt])

/-! ### C2: watermark versus issue persistence -/

theorem call_update_cleaning_log_fails (d : Nat) :
    call_update_cleaning_log d = Except.error () := by
  unfold call_update_cleaning_log update_cleaning_log_arg_count
    update_cleaning_log_param_count
  simp

theorem clean_symbol_none_or_some (symbol : String) (bars : List Bar)
    (fd : List Nat) (lc : Option Nat) (fr : Bool) :
    clean_symbol symbol bars fd lc fr = ([], none) ∨
      ∃ issues d, clean_symbol symbol bars fd lc fr = (issues, some d) := by
  unfold clean_symbol
  split <;> (dsimp only; split)
  · left
    rfl
  · right
    exact ⟨_, _, rfl⟩
  · left
    rfl
  · right
    exact ⟨_, _, rfl⟩

/-- C2. cleaner.py line 81 calls `update_cleaning_log` with four
arguments (symbol, source, date, session) while storage.py line 84
declares three parameters (symbol, date, session): Python raises
TypeError on every scan that reaches the call, `worker_clean` catches
it and rolls back, so every single-source scan returns no issues and
leaves the watermark untouched — the watermark can never advance and
no Issue row is ever produced, there is nothing for persistence to be
transactionally coupled with. -/
theorem worker_clean_never_advances (symbol : String) (bars : List Bar)
    (fd : List Nat) (log : Option Nat) (full_recheck : Bool) :
    worker_clean_run symbol bars fd log full_recheck = ([], log) := by
  unfold worker_clean_run
  dsimp only
  rcases clean_symbol_none_or_some symbol bars fd
      (if full_recheck then none else log) full_recheck with h | ⟨issues, d, h⟩
  · rw [h]
  · rw [h]
    simp only [call_update_cleaning_log_fails]

/-! ### C5: incremental re-scan of an unchanged series -/

theorem get_data_for_cleaning_subset (bars : List Bar) (s : Option Nat) :
    ∀ b ∈ get_data_for_cleaning bars s, b ∈ bars := by
  intro b hb
  unfold get_data_for_cleaning at hb
  cases s with
  | none => exact (mem_sortLeBy _ bars b).mp hb
  | some s0 =>
    dsimp only at hb
    cases hmax : maxNat ((bars.filter (fun b => b.trade_date < s0)).map (fun b => b.trade_date)) with
    | none =>
      rw [hmax] at hb
      simp at hb
    | some p =>
      rw [hmax] at hb
      have := (mem_sortLeBy _ _ b).mp hb
      exact (List.mem_filter.mp this).1

/-- C5 counterexample. A two-bar series whose last bar jumps 40%.
Run 1 (full) reports the jump and sets the watermark to the last
date; run 2, incremental from that watermark with no new bars,
re-emits exactly the same issue instead of reporting nothing:
`check_from_date` is the watermark itself, inclusive, so the
watermark-day bar is re-examined every incremental run. -/
theorem rescan_reemits_watermark_day_cex :
    clean_symbol "600000"
        [⟨20230101, 10, 10, 10, 10, 100⟩, ⟨20230102, 14, 14, 14, 14, 100⟩] [] none true
      = ([⟨"600000", "single_source", 20230102, "价格突变", "Error",
          Details.pctOnly (PFloat.val (2 / 5))⟩], some 20230102)
    ∧ clean_symbol "600000"
        [⟨20230101, 10, 10, 10, 10, 100⟩, ⟨20230102, 14, 14, 14, 14, 100⟩] [] (some 20230102) false
      = ([⟨"600000", "single_source", 20230102, "价格突变", "Error",
          Details.pctOnly (PFloat.val (2 / 5))⟩], some 20230102) := by
  constructor <;>
    (norm_num [clean_symbol, get_data_for_cleaning, sortLeBy, List.insertionSort,
      List.orderedInsert, maxNat, minNat, find_data_issues, pairWithPrev, rowIssues,
      pct_change_abs, ratAbs, pfloat_notna_gt, tagIssue];
     simp [tagIssue])

/-- C5 amended. With key-unique dates: if a full scan returned
watermark d, an incremental re-scan from d with the same bars only
ever emits issues dated exactly d (nothing strictly before the
watermark is re-reported), and any watermark value it requests is
again d. -/
theorem rescan_after_watermark (symbol : String) (bars : List Bar) (fd : List Nat)
    (i1 : List FinalIssue) (d : Nat)
    (h1 : clean_symbol symbol bars fd none true = (i1, some d)) :
    (∀ is ∈ (clean_symbol symbol bars fd (some d) false).1, is.trade_date = d) ∧
    (∀ w, (clean_symbol symbol bars fd (some d) false).2 = some w → w = d) := by
  unfold clean_symbol at h1
  dsimp only at h1
  simp only [ite_self, Option.isSome_none, Bool.false_eq_true, false_and, or_false] at h1
  by_cases hc1 : get_data_for_cleaning bars none = []
  · rw [if_pos hc1] at h1
    exact absurd (congrArg Prod.snd h1) (by simp)
  rw [if_neg hc1] at h1
  have hdw : d = (maxNat ((get_data_for_cleaning bars none).map (fun b => b.trade_date))).getD 0 := by
    have := congrArg Prod.snd h1
    simp only at this
    injection this with h
    omega
  -- the watermark d is the greatest trade date of bars
  have hmemiff : ∀ x, x ∈ (get_data_for_cleaning bars none).map (fun b => b.trade_date)
      ↔ x ∈ bars.map (fun b => b.trade_date) := by
    intro x
    exact (sortLeBy_map_key_perm (fun b => b.trade_date) bars).mem_iff
  have hne1 : (get_data_for_cleaning bars none).map (fun b => b.trade_date) ≠ [] := by
    intro hcontra
    exact hc1 (List.map_eq_nil_iff.mp hcontra)
  obtain ⟨m, hm⟩ : ∃ m, maxNat ((get_data_for_cleaning bars none).map (fun b => b.trade_date)) = some m := by
    cases hm0 : maxNat ((get_data_for_cleaning bars none).map (fun b => b.trade_date)) with
    | none => exact absurd ((maxNat_eq_none_iff _).mp hm0) hne1
    | some m => exact ⟨m, rfl⟩
  have hdm : d = m := by rw [hdw, hm]; rfl
  have hdmem : d ∈ bars.map (fun b => b.trade_date) := by
    rw [hdm]
    exact (hmemiff m).mp (maxNat_mem _ m hm)
  have hdub : ∀ b ∈ bars, b.trade_date ≤ d := by
    intro b hb
    rw [hdm]
    exact le_maxNat _ m hm b.trade_date
      ((hmemiff b.trade_date).mpr (List.mem_map_of_mem _ hb))
  -- run 2
  unfold clean_symbol
  dsimp only
  simp only [Bool.false_eq_true, if_false]
  by_cases hc2 : get_data_for_cleaning bars (some d) = [] ∨
      ((some d : Option Nat).isSome = true ∧ (get_data_for_cleaning bars (some d)).length ≤ 1)
  · rw [if_pos hc2]
    constructor
    · intro is his
      simp at his
    · intro w hw
      simp at hw
  rw [if_neg hc2]
  have hsub : ∀ b ∈ get_data_for_cleaning bars (some d), b ∈ bars :=
    get_data_for_cleaning_subset bars (some d)
  constructor
  · intro is his
    simp only at his
    rcases List.mem_map.mp his with ⟨is0, his0, rfl⟩
    have hsh := find_data_issues_shape _ fd _ is0 his0
    have hge : d ≤ is0.trade_date := hsh.2.2 d rfl
    have hmem2 := hsh.1
    rcases List.mem_map.mp hmem2 with ⟨b, hb, hbd⟩
    have hle : is0.trade_date ≤ d := by
      rw [← hbd]
      exact hdub b (hsub b hb)
    show is0.trade_date = d
    omega
  · intro w hw
    simp only at hw
    injection hw with hw
    -- the requested watermark is again the greatest date d
    have hd2ub : ∀ x ∈ (get_data_for_cleaning bars (some d)).map (fun b => b.trade_date), x ≤ d := by
      intro x hx
      rcases List.mem_map.mp hx with ⟨b, hb, rfl⟩
      exact hdub b (hsub b hb)
    have hd2mem : d ∈ (get_data_for_cleaning bars (some d)).map (fun b => b.trade_date) := by
      rcases List.mem_map.mp hdmem with ⟨bd, hbd, hbdd⟩
      unfold get_data_for_cleaning
      dsimp only
      cases hmax : maxNat ((bars.filter (fun b => b.trade_date < d)).map (fun b => b.trade_date)) with
      | none =>
        exfalso
        apply hc2
        left
        unfold get_data_for_cleaning
        dsimp only
        rw [hmax]
      | some p =>
        dsimp only
        have hpd : p < d := by
          have hpm := maxNat_mem _ p hmax
          rcases List.mem_map.mp hpm with ⟨bp, hbp, hbpd⟩
          have hlt := (List.mem_filter.mp hbp).2
          rw [← hbpd]
          exact of_decide_eq_true hlt
        apply List.mem_map.mpr
        refine ⟨bd, ?_, hbdd⟩
        apply (mem_sortLeBy _ _ bd).mpr
        apply List.mem_filter.mpr
        refine ⟨hbd, ?_⟩
        simp only [decide_eq_true_eq]
        omega
    have : maxNat ((get_data_for_cleaning bars (some d)).map (fun b => b.trade_date)) = some d :=
      maxNat_eq_some_of_mem_ub _ d hd2mem hd2ub
    rw [this] at hw
    simp at hw
    omega

/-- C5 witness: the amended statement applied to the concrete two-bar
series of the counterexample scenario. -/
theorem rescan_after_watermark_witness :
    (∀ is ∈ (clean_symbol "600000"
        [⟨20230101, 10, 10, 10, 10, 100⟩, ⟨20230102, 14, 14, 14, 14, 100⟩]
        [] (some 20230102) false).1, is.trade_date = 20230102) ∧
    (∀ w, (clean_symbol "600000"
        [⟨20230101, 10, 10, 10, 10, 100⟩, ⟨20230102, 14, 14, 14, 14, 100⟩]
        [] (some 20230102) false).2 = some w → w = 20230102) :=
  rescan_after_watermark "600000"
    [⟨20230101, 10, 10, 10, 10, 100⟩, ⟨20230102, 14, 14, 14, 14, 100⟩] []
    [⟨"600000", "single_source", 20230102, "价格突变", "Error",
      Details.pctOnly (PFloat.val (2 / 5))⟩] 20230102
    (by
      norm_num [clean_symbol, get_data_for_cleaning, sortLeBy, List.insertionSort,
        List.orderedInsert, maxNat, minNat, find_data_issues, pairWithPrev, rowIssues,
        pct_change_abs, ratAbs, pfloat_notna_gt, tagIssue]
      simp [tagIssue])

/-! ### C9: the seed bar of an incremental window -/

/-- C9 counterexample. An incremental scan whose watermark is the
series' earliest date: no bar precedes the watermark, the scalar
subquery is NULL, and the query loads nothing at all — zero bars
strictly before the watermark are loaded (the claim demands exactly
one), and the in-window bars are not loaded either. -/
theorem seed_bar_loading_cex :
    get_data_for_cleaning
        [⟨20230101, 10, 10, 10, 10, 100⟩, ⟨20230102, 10, 10, 10, 10, 100⟩]
        (some 20230101) = [] := by
  norm_num [get_data_for_cleaning, maxNat]

/-- C9 amended. When at least one bar lies strictly before the
watermark, the incremental query loads exactly one such bar — the
latest one — together with every in-window bar, and `find_data_issues`
never reports an issue dated before its `check_from_date` (so the seed
bar, which lies before the incremental `check_from_date`, is never
reported); when no bar precedes the watermark the query returns no
rows (the counterexample above). -/
theorem seed_bar_window (bars : List Bar) (s : Nat)
    (hnd : (bars.map (fun b => b.trade_date)).Nodup)
    (b0 : Bar) (hb0 : b0 ∈ bars) (hb0s : b0.trade_date < s) :
    ((get_data_for_cleaning bars (some s)).filter (fun b => decide (b.trade_date < s))).length = 1 ∧
    (∀ b ∈ get_data_for_cleaning bars (some s), b.trade_date < s →
      ∀ c ∈ bars, c.trade_date < s → c.trade_date ≤ b.trade_date) ∧
    (∀ c ∈ bars, s ≤ c.trade_date → c ∈ get_data_for_cleaning bars (some s)) ∧
    (∀ fd cf is, is ∈ find_data_issues (get_data_for_cleaning bars (some s)) fd (some cf) →
      cf ≤ is.trade_date) := by
  have hprior : b0.trade_date ∈ (bars.filter (fun b => b.trade_date < s)).map (fun b => b.trade_date) := by
    apply List.mem_map_of_mem
    apply List.mem_filter.mpr
    exact ⟨hb0, by simpa using hb0s⟩
  obtain ⟨p, hp⟩ : ∃ p, maxNat ((bars.filter (fun b => b.trade_date < s)).map (fun b => b.trade_date)) = some p := by
    cases hm0 : maxNat ((bars.filter (fun b => b.trade_date < s)).map (fun b => b.trade_date)) with
    | none =>
      rw [maxNat_eq_none_iff] at hm0
      rw [hm0] at hprior
      simp at hprior
    | some p => exact ⟨p, rfl⟩
  have hdf : get_data_for_cleaning bars (some s)
      = sortLeBy (fun b => b.trade_date) (bars.filter (fun b => p ≤ b.trade_date)) := by
    unfold get_data_for_cleaning
    dsimp only
    rw [hp]
  have hpub : ∀ b ∈ bars, b.trade_date < s → b.trade_date ≤ p := by
    intro b hb hbs
    apply le_maxNat _ p hp
    apply List.mem_map_of_mem
    exact List.mem_filter.mpr ⟨hb, by simpa using hbs⟩
  have hps : p < s := by
    have hpm := maxNat_mem _ p hp
    rcases List.mem_map.mp hpm with ⟨bp, hbp, hbpd⟩
    have := (List.mem_filter.mp hbp).2
    rw [← hbpd]
    exact of_decide_eq_true this
  obtain ⟨bp, hbpbars, hbpd⟩ : ∃ bp, bp ∈ bars ∧ bp.trade_date = p := by
    have hpm := maxNat_mem _ p hp
    rcases List.mem_map.mp hpm with ⟨bp, hbp, hbpd⟩
    exact ⟨bp, (List.mem_filter.mp hbp).1, hbpd⟩
  refine ⟨?_, ?_, ?_, ?_⟩
  · -- exactly one bar strictly before the watermark
    have hperm : List.Perm
        ((get_data_for_cleaning bars (some s)).filter (fun b => decide (b.trade_date < s)))
        ((bars.filter (fun b => p ≤ b.trade_date)).filter (fun b => decide (b.trade_date < s))) := by
      rw [hdf]
      exact (sortLeBy_perm _ _).filter _
    rw [hperm.length_eq, List.filter_filter]
    have hcongr : bars.filter (fun b => decide (b.trade_date < s) && decide (p ≤ b.trade_date))
        = bars.filter (fun b => decide (b.trade_date = p)) := by
      apply List.filter_congr
      intro b hb
      by_cases hbp : b.trade_date = p
      · simp [hbp, hps]
      · by_cases hbs : b.trade_date < s
        · have h1 := hpub b hb hbs
          have h2 : ¬ p ≤ b.trade_date := by omega
          simp [hbp, h2]
        · simp [hbp, hbs]
    rw [hcongr]
    rw [← List.countP_eq_length_filter]
    have hc1 : List.countP (fun b => decide (b.trade_date = p)) bars
        = List.count p (bars.map (fun b => b.trade_date)) := by
      rw [List.count, List.countP_map]
      apply List.countP_congr
      intro b _
      simp [Function.comp]
    rw [hc1]
    apply List.count_eq_one_of_mem hnd
    rw [← hbpd]
    exact List.mem_map_of_mem _ hbpbars
  · -- the loaded pre-watermark bar is the latest such bar
    intro b hb hbs c hc hcs
    rw [hdf] at hb
    have hbf := (mem_sortLeBy _ _ b).mp hb
    rcases List.mem_filter.mp hbf with ⟨hbbars, hbp⟩
    have h1 : p ≤ b.trade_date := of_decide_eq_true hbp
    have h2 : b.trade_date ≤ p := hpub b hbbars hbs
    have h3 : c.trade_date ≤ p := hpub c hc hcs
    omega
  · -- every in-window bar is loaded
    intro c hc hcs
    rw [hdf]
    apply (mem_sortLeBy _ _ c).mpr
    apply List.mem_filter.mpr
    refine ⟨hc, ?_⟩
    simp only [decide_eq_true_eq]
    omega
  · -- no issue below check_from_date
    intro fd cf is his
    exact (find_data_issues_shape _ fd (some cf) is his).2.2 cf rfl

/-- C9 witness: three bars, watermark on the last date: the seed is
the middle bar, the window bar is loaded, and issues respect
check_from_date. -/
theorem seed_bar_window_witness :
    (((get_data_for_cleaning
        [⟨20230101, 10, 10, 10, 10, 100⟩, ⟨20230102, 10, 10, 10, 10, 100⟩,
          ⟨20230103, 10, 10, 10, 10, 100⟩] (some 20230103)).filter
        (fun b => decide (b.trade_date < 20230103))).length = 1) ∧
    (∀ b ∈ get_data_for_cleaning
        [⟨20230101, 10, 10, 10, 10, 100⟩, ⟨20230102, 10, 10, 10, 10, 100⟩,
          ⟨20230103, 10, 10, 10, 10, 100⟩] (some 20230103), b.trade_date < 20230103 →
      ∀ c ∈ [(⟨20230101, 10, 10, 10, 10, 100⟩ : Bar), ⟨20230102, 10, 10, 10, 10, 100⟩,
          ⟨20230103, 10, 10, 10, 10, 100⟩], c.trade_date < 20230103 → c.trade_date ≤ b.trade_date) ∧
    (∀ c ∈ [(⟨20230101, 10, 10, 10, 10, 100⟩ : Bar), ⟨20230102, 10, 10, 10, 10, 100⟩,
          ⟨20230103, 10, 10, 10, 10, 100⟩], 20230103 ≤ c.trade_date →
      c ∈ get_data_for_cleaning
        [⟨20230101, 10, 10, 10, 10, 100⟩, ⟨20230102, 10, 10, 10, 10, 100⟩,
          ⟨20230103, 10, 10, 10, 10, 100⟩] (some 20230103)) ∧
    (∀ fd cf is, is ∈ find_data_issues (get_data_for_cleaning
        [⟨20230101, 10, 10, 10, 10, 100⟩, ⟨20230102, 10, 10, 10, 10, 100⟩,
          ⟨20230103, 10, 10, 10, 10, 100⟩] (some 20230103)) fd (some cf) →
      cf ≤ is.trade_date) :=
  seed_bar_window
    [⟨20230101, 10, 10, 10, 10, 100⟩, ⟨20230102, 10, 10, 10, 10, 100⟩,
      ⟨20230103, 10, 10, 10, 10, 100⟩] 20230103 (by decide)
    ⟨20230102, 10, 10, 10, 10, 100⟩ (by decide) (by decide)

/-! ### Structural lemmas about the Cross-Source Reconciler -/

theorem merge_outer_map_dates (df_ak df_bk : List Bar) :
    (merge_outer df_ak df_bk).map (fun r => r.trade_date)
      = sortLeBy (fun d => d)
          ((df_ak.map (fun b => b.trade_date) ++ df_bk.map (fun b => b.trade_date)).dedup) := by
  unfold merge_outer
  dsimp only
  rw [List.map_map]
  have hcomp : ((fun r : MergedRow => r.trade_date) ∘
      (fun d => (⟨d, lookupClose df_ak d, lookupClose df_bk d⟩ : MergedRow))) = fun d => d := rfl
  rw [hcomp, List.map_id']

theorem merge_outer_dates_nodup (df_ak df_bk : List Bar) :
    ((merge_outer df_ak df_bk).map (fun r => r.trade_date)).Nodup := by
  rw [merge_outer_map_dates]
  exact (sortLeBy_perm _ _).nodup_iff.mpr (List.nodup_dedup _)

theorem mem_merge_outer_dates (df_ak df_bk : List Bar) (d : Nat) :
    d ∈ (merge_outer df_ak df_bk).map (fun r => r.trade_date)
      ↔ d ∈ df_ak.map (fun b => b.trade_date) ∨ d ∈ df_bk.map (fun b => b.trade_date) := by
  rw [merge_outer_map_dates]
  rw [mem_sortLeBy]
  rw [List.mem_dedup, List.mem_append]

theorem mkRow_mem_merge_outer (df_ak df_bk : List Bar) (d : Nat)
    (hd : d ∈ (merge_outer df_ak df_bk).map (fun r => r.trade_date)) :
    (⟨d, lookupClose df_ak d, lookupClose df_bk d⟩ : MergedRow) ∈ merge_outer df_ak df_bk := by
  rw [merge_outer_map_dates] at hd
  unfold merge_outer
  dsimp only
  exact List.mem_map_of_mem _ hd

theorem calendarGapIssues_date_not_present (susp cal : List Nat)
    (merged : List MergedRow) :
    ∀ is ∈ calendarGapIssues susp cal merged,
      ¬ is.trade_date ∈ merged.map (fun r => r.trade_date) := by
  intro is his
  unfold calendarGapIssues at his
  split at his
  · simp at his
  · dsimp only at his
    rcases List.mem_flatMap.mp his with ⟨x, hx, hisx⟩
    have hxd : is.trade_date = x := by
      split at hisx <;> simp_all
    have hxmem := (mem_sortLeBy _ _ x).mp hx
    have h2 := (List.mem_filter.mp hxmem).2
    rw [hxd]
    simpa using h2

theorem calendarGapIssues_filter_present (susp cal : List Nat)
    (merged : List MergedRow) (d : Nat) (p : Issue → Bool)
    (hp : ∀ is, p is = true → is.trade_date = d)
    (hd : d ∈ merged.map (fun r => r.trade_date)) :
    (calendarGapIssues susp cal merged).filter p = [] := by
  rw [List.filter_eq_nil_iff]
  intro is his hptrue
  have h1 := calendarGapIssues_date_not_present susp cal merged is his
  rw [hp is hptrue] at h1
  exact h1 hd

theorem calendarGapIssues_filter_missing (susp cal : List Nat)
    (merged : List MergedRow) (d : Nat)
    (hcal : ¬ cal = [])
    (hdcal : d ∈ cal)
    (hlo : (minNat (merged.map (fun r => r.trade_date))).getD 0 ≤ d)
    (hhi : d ≤ (maxNat (merged.map (fun r => r.trade_date))).getD 0)
    (habs : ¬ d ∈ merged.map (fun r => r.trade_date))
    (hsusp : ¬ d ∈ susp) :
    (calendarGapIssues susp cal merged).filter (fun is => decide (is.trade_date = d))
      = [⟨d, "双方数据缺失", "Critical", Details.text "akshare 和 baostock 均缺失该交易日数据"⟩] := by
  unfold calendarGapIssues
  rw [if_neg hcal]
  dsimp only
  have hstep := flatMap_filter_eq_of_nodup
    (fun d0 => if d0 ∈ susp then []
      else [⟨d0, "双方数据缺失", "Critical", Details.text "akshare 和 baostock 均缺失该交易日数据"⟩])
    (fun d0 => d0)
    (fun is => decide (is.trade_date = d))
    (sortLeBy (fun d0 => d0)
      ((cal.filter (fun d0 => (minNat (merged.map (fun r => r.trade_date))).getD 0 ≤ d0
          ∧ d0 ≤ (maxNat (merged.map (fun r => r.trade_date))).getD 0)).dedup.filter
        (fun d0 => ¬ d0 ∈ merged.map (fun r => r.trade_date))))
    (by
      intro x hx is his
      dsimp only at his
      show is.trade_date = x
      split at his <;> simp_all)
    (by
      rw [List.map_id']
      apply (sortLeBy_perm _ _).nodup_iff.mpr
      exact (List.nodup_dedup _).filter _)
    d
    (by
      apply (mem_sortLeBy _ _ d).mpr
      apply List.mem_filter.mpr
      refine ⟨?_, by simpa using habs⟩
      apply List.mem_dedup.mpr
      apply List.mem_filter.mpr
      exact ⟨hdcal, by simp [hlo, hhi]⟩)
    (by intro is his; exact of_decide_eq_true his)
  rw [hstep]
  dsimp only
  rw [if_neg hsusp]
  simp

theorem filter_map_tagIssue (s c : String) (l : List Issue) (p : Issue → Bool) :
    ((l.map (tagIssue s c)).filter (fun fi => p ⟨fi.trade_date, fi.issue, fi.severity, fi.details⟩))
      = (l.filter (fun is => p ⟨is.trade_date, is.issue, is.severity, is.details⟩)).map (tagIssue s c) := by
  rw [List.filter_map]
  rfl

/-! ### C6: cross-source price comparison -/

theorem lookupClose_some_mem (df : List Bar) (d : Nat) (a : ℚ)
    (h : lookupClose df d = some a) :
    d ∈ df.map (fun b => b.trade_date) := by
  unfold lookupClose at h
  rcases Option.map_eq_some'.mp h with ⟨bar, hfind, hclose⟩
  have hmem := List.mem_of_find?_eq_some hfind
  have hpred := List.find?_some hfind
  have hd : bar.trade_date = d := of_decide_eq_true hpred
  rw [← hd]
  exact List.mem_map_of_mem _ hmem

/-- C6. For a date present in both providers' series, the Reconciler
compares the closes with the relative difference |a − b| / a (0 when
a = 0) and emits exactly one Error "价格不一致" ("price inconsistency")
carrying both closes if and only if the difference exceeds 0.001. -/
theorem price_inconsistency_rule (symbol : String) (df_ak df_bk : List Bar)
    (susp cal : List Nat) (d : Nat) (a b : ℚ)
    (hak : lookupClose df_ak d = some a) (hbk : lookupClose df_bk d = some b) :
    (cross_validate_symbol symbol df_ak df_bk susp cal).filter
        (fun fi => decide (fi.trade_date = d ∧ fi.issue = "价格不一致"))
      = (if (if a ≠ 0 then |a - b| / a else 0) > 1 / 1000 then
          [⟨symbol, "cross_validation", d, "价格不一致", "Error", Details.closes a b⟩]
        else []) := by
  have hdak : d ∈ df_ak.map (fun b => b.trade_date) := lookupClose_some_mem df_ak d a hak
  have hdm : d ∈ (merge_outer df_ak df_bk).map (fun r => r.trade_date) :=
    (mem_merge_outer_dates df_ak df_bk d).mpr (Or.inl hdak)
  have hne : ¬ (df_ak = [] ∧ df_bk = []) := by
    rintro ⟨h1, _⟩
    subst h1
    simp [lookupClose] at hak
  unfold cross_validate_symbol
  rw [if_neg hne]
  dsimp only
  rw [List.filter_map]
  show (((merge_outer df_ak df_bk).flatMap (reconcileRow susp)
      ++ calendarGapIssues susp cal (merge_outer df_ak df_bk)).filter
        (fun is => decide (is.trade_date = d ∧ is.issue = "价格不一致"))).map
      (tagIssue symbol "cross_validation")
    = _
  rw [List.filter_append]
  rw [calendarGapIssues_filter_present susp cal (merge_outer df_ak df_bk) d _
    (fun is h => (of_decide_eq_true h).1) hdm]
  rw [List.append_nil]
  rw [flatMap_filter_eq_of_nodup (reconcileRow susp) (fun r => r.trade_date) _
    (merge_outer df_ak df_bk)
    (fun r _ => reconcileRow_trade_date susp r)
    (merge_outer_dates_nodup df_ak df_bk)
    (⟨d, lookupClose df_ak d, lookupClose df_bk d⟩ : MergedRow)
    (mkRow_mem_merge_outer df_ak df_bk d hdm)
    (fun is h => (of_decide_eq_true h).1)]
  rw [hak, hbk]
  unfold reconcileRow
  dsimp only
  rw [ratAbs_eq_abs (a - b)]
  by_cases hdiff : (if a ≠ 0 then |a - b| / a else 0) > 1 / 1000
  · rw [if_pos hdiff, if_pos hdiff]
    simp [tagIssue]
  · rw [if_neg hdiff, if_neg hdiff]
    simp

/-- C6 witness: closes 10.00 vs 10.02 (0.2% difference) yield one
Error with both closes; closes 10.00 vs 10.005 (0.05%) yield none. -/
theorem price_inconsistency_rule_witness :
    ((cross_validate_symbol "600000" [⟨5, 10, 10, 10, 10, 1⟩] [⟨5, 10, 10, 10, 501 / 50, 1⟩]
        [] []).filter (fun fi => decide (fi.trade_date = 5 ∧ fi.issue = "价格不一致"))
      = [⟨"600000", "cross_validation", 5, "价格不一致", "Error",
          Details.closes 10 (501 / 50)⟩])
    ∧ ((cross_validate_symbol "600000" [⟨5, 10, 10, 10, 10, 1⟩] [⟨5, 10, 10, 10, 2001 / 200, 1⟩]
        [] []).filter (fun fi => decide (fi.trade_date = 5 ∧ fi.issue = "价格不一致"))
      = []) := by
  have h1 := price_inconsistency_rule "600000" [⟨5, 10, 10, 10, 10, 1⟩]
    [⟨5, 10, 10, 10, 501 / 50, 1⟩] [] [] 5 10 (501 / 50)
    (by simp [lookupClose]) (by simp [lookupClose])
  have h2 := price_inconsistency_rule "600000" [⟨5, 10, 10, 10, 10, 1⟩]
    [⟨5, 10, 10, 10, 2001 / 200, 1⟩] [] [] 5 10 (2001 / 200)
    (by simp [lookupClose]) (by simp [lookupClose])
  constructor
  · refine h1.trans ?_
    rw [if_pos]
    rw [abs_of_nonpos (by norm_num : (10 : ℚ) - 501 / 50 ≤ 0)]
    norm_num
  · refine h2.trans ?_
    rw [if_neg]
    rw [abs_of_nonpos (by norm_num : (10 : ℚ) - 2001 / 200 ≤ 0)]
    norm_num

/-! ### C7: both-sources-missing calendar check -/

/-- C7. A trading-calendar date inside [min, max] of the outer-joined
series, absent from both providers' series and not a suspension date,
yields exactly one issue at that date: the Critical
"双方数据缺失" ("both sources missing trading-day data") — one, not two. -/
theorem both_sources_missing_critical (symbol : String) (df_ak df_bk : List Bar)
    (susp cal : List Nat) (d : Nat)
    (hne : ¬ (df_ak = [] ∧ df_bk = []))
    (hdcal : d ∈ cal)
    (hlo : (minNat ((merge_outer df_ak df_bk).map (fun r => r.trade_date))).getD 0 ≤ d)
    (hhi : d ≤ (maxNat ((merge_outer df_ak df_bk).map (fun r => r.trade_date))).getD 0)
    (hak : ¬ d ∈ df_ak.map (fun b => b.trade_date))
    (hbk : ¬ d ∈ df_bk.map (fun b => b.trade_date))
    (hsusp : ¬ d ∈ susp) :
    (cross_validate_symbol symbol df_ak df_bk susp cal).filter
        (fun fi => decide (fi.trade_date = d))
      = [⟨symbol, "cross_validation", d, "双方数据缺失", "Critical",
          Details.text "akshare 和 baostock 均缺失该交易日数据"⟩] := by
  have habs : ¬ d ∈ (merge_outer df_ak df_bk).map (fun r => r.trade_date) := by
    rw [mem_merge_outer_dates]
    tauto
  have hcal : ¬ cal = [] := by
    intro h
    subst h
    simp at hdcal
  unfold cross_validate_symbol
  rw [if_neg hne]
  dsimp only
  rw [List.filter_map]
  show (((merge_outer df_ak df_bk).flatMap (reconcileRow susp)
      ++ calendarGapIssues susp cal (merge_outer df_ak df_bk)).filter
        (fun is => decide (is.trade_date = d))).map
      (tagIssue symbol "cross_validation")
    = _
  rw [List.filter_append]
  rw [flatMap_filter_eq_nil (reconcileRow susp) (fun r => r.trade_date) _ d
    (merge_outer df_ak df_bk)
    (fun r _ => reconcileRow_trade_date susp r)
    (fun is h => of_decide_eq_true h)
    habs]
  rw [List.nil_append]
  rw [calendarGapIssues_filter_missing susp cal (merge_outer df_ak df_bk) d
    hcal hdcal hlo hhi habs hsusp]
  simp [tagIssue]

/-- C7 witness: calendar {2023-01-02..04}, one provider has only
01-02, the other only 01-04, no suspensions: exactly one Critical for
01-03. -/
theorem both_sources_missing_critical_witness :
    (cross_validate_symbol "600000" [⟨20230102, 10, 10, 10, 10, 1⟩]
        [⟨20230104, 10, 10, 10, 10, 1⟩] [] [20230102, 20230103, 20230104]).filter
        (fun fi => decide (fi.trade_date = 20230103))
      = [⟨"600000", "cross_validation", 20230103, "双方数据缺失", "Critical",
          Details.text "akshare 和 baostock 均缺失该交易日数据"⟩] :=
  both_sources_missing_critical "600000" [⟨20230102, 10, 10, 10, 10, 1⟩]
    [⟨20230104, 10, 10, 10, 10, 1⟩] [] [20230102, 20230103, 20230104] 20230103
    (by simp) (by simp)
    (by norm_num [merge_outer, lookupClose, sortLeBy, List.insertionSort,
      List.orderedInsert, minNat, maxNat])
    (by norm_num [merge_outer, lookupClose, sortLeBy, List.insertionSort,
      List.orderedInsert, minNat, maxNat])
    (by decide) (by decide) (by decide)

/-! ### C3: the adjustment-factor synthesizer -/

theorem cumprod_length (l : List ℚ) : (cumprod l).length = l.length := by
  unfold cumprod
  simp

theorem cumprod_getElem (l : List ℚ) (i : Nat) (h2 : i < (cumprod l).length) :
    (cumprod l)[i] = (l.take (i + 1)).prod := by
  unfold cumprod
  rw [List.getElem_map, List.getElem_range]

theorem sorted_filter_ge_eq_drop (l : List Nat) (hs : l.Sorted (· < ·))
    (i : Nat) (hi : i < l.length) :
    l.filter (fun d => decide (l[i] ≤ d)) = l.drop i := by
  induction l generalizing i with
  | nil => simp at hi
  | cons x xs ih =>
    rcases List.sorted_cons.mp hs with ⟨hxall, hxs⟩
    cases i with
    | zero =>
      simp only [List.getElem_cons_zero, List.drop_zero]
      rw [List.filter_cons, if_pos (by simp)]
      congr 1
      apply List.filter_eq_self.mpr
      intro b hb
      have := hxall b hb
      simp only [decide_eq_true_eq]
      omega
    | succ j =>
      have hj : j < xs.length := by
        simp at hi
        omega
      simp only [List.getElem_cons_succ]
      rw [List.filter_cons]
      have hlt : x < xs[j] := hxall _ (List.getElem_mem hj)
      rw [if_neg (by simp only [decide_eq_true_eq]; omega)]
      rw [List.drop_succ_cons]
      exact ih hxs j hj

theorem sorted_filter_le_eq_take (l : List Nat) (hs : l.Sorted (· < ·))
    (i : Nat) (hi : i < l.length) :
    l.filter (fun d => decide (d ≤ l[i])) = l.take (i + 1) := by
  induction l generalizing i with
  | nil => simp at hi
  | cons x xs ih =>
    rcases List.sorted_cons.mp hs with ⟨hxall, hxs⟩
    cases i with
    | zero =>
      simp only [List.getElem_cons_zero]
      rw [List.filter_cons, if_pos (by simp)]
      rw [show (0 : Nat) + 1 = 1 from rfl, List.take_succ_cons, List.take_zero]
      congr 1
      apply List.filter_eq_nil_iff.mpr
      intro b hb
      have := hxall b hb
      simp only [decide_eq_true_eq]
      omega
    | succ j =>
      have hj : j < xs.length := by
        simp at hi
        omega
      simp only [List.getElem_cons_succ]
      rw [List.filter_cons]
      have hlt : x < xs[j] := hxall _ (List.getElem_mem hj)
      rw [if_pos (by simp only [decide_eq_true_eq]; omega)]
      rw [List.take_succ_cons]
      congr 1
      exact ih hxs j hj

/-- C3. For every instrument skeleton and sparse event list, the
synthesized forward cumulative factor at the i-th (ascending) trading
date equals the product of the per-day forward ratios (1/fore on event
dates, 1.0 elsewhere) over all skeleton dates ≥ that date, and the
backward cumulative factor equals the product of the per-day backward
ratios over all dates ≤ it; with no events both series are identically
1.0 (the products of empty ratio sets of 1.0). -/
theorem fetch_factors_cumulative (skeleton_raw : List Nat) (events : List FactorEvent)
    (hnd : skeleton_raw.Nodup) (i : Nat)
    (hi : i < (skeleton_days skeleton_raw).length) :
    (fetch_factors skeleton_raw events).1[i]?
      = some ((skeleton_days skeleton_raw)[i],
          (((skeleton_days skeleton_raw).filter
            (fun d => decide ((skeleton_days skeleton_raw)[i] ≤ d))).map
            (forward_factor_discrete events)).prod)
    ∧ (fetch_factors skeleton_raw events).2[i]?
      = some ((skeleton_days skeleton_raw)[i],
          (((skeleton_days skeleton_raw).filter
            (fun d => decide (d ≤ (skeleton_days skeleton_raw)[i]))).map
            (back_factor_discrete events)).prod) := by
  have hsort : (skeleton_days skeleton_raw).Sorted (· < ·) :=
    sortDates_sorted_lt skeleton_raw hnd
  rw [sorted_filter_ge_eq_drop _ hsort i hi, sorted_filter_le_eq_take _ hsort i hi]
  unfold fetch_factors
  dsimp only
  generalize hD : skeleton_days skeleton_raw = D at hi hsort ⊢
  by_cases hev : events = []
  · rw [if_pos hev]
    subst hev
    constructor
    · rw [List.getElem?_map, List.getElem?_eq_getElem hi]
      simp only [Option.map_some']
      congr 2
      symm
      apply List.prod_eq_one
      intro x hx
      rcases List.mem_map.mp hx with ⟨d0, _, rfl⟩
      unfold forward_factor_discrete
      simp
    · rw [List.getElem?_map, List.getElem?_eq_getElem hi]
      simp only [Option.map_some']
      congr 2
      symm
      apply List.prod_eq_one
      intro x hx
      rcases List.mem_map.mp hx with ⟨d0, _, rfl⟩
      unfold back_factor_discrete
      simp
  · rw [if_neg hev]
    have hlenf : ((cumprod ((D.reverse).map (forward_factor_discrete events))).reverse).length
        = D.length := by
      rw [List.length_reverse, cumprod_length, List.length_map, List.length_reverse]
    have hlenb : (cumprod (D.map (back_factor_discrete events))).length = D.length := by
      rw [cumprod_length, List.length_map]
    constructor
    · have hzlen : i < (D.zip ((cumprod ((D.reverse).map (forward_factor_discrete events))).reverse)).length := by
        rw [List.length_zip, hlenf]
        omega
      rw [List.getElem?_eq_getElem hzlen, List.getElem_zip]
      congr 2
      have hi2 : i < ((cumprod ((D.reverse).map (forward_factor_discrete events)))).length := by
        rw [cumprod_length, List.length_map, List.length_reverse]
        exact hi
      rw [List.getElem_reverse]
      have hi3 : (cumprod (List.map (forward_factor_discrete events) D.reverse)).length - 1 - i
          < ((D.reverse).map (forward_factor_discrete events)).length := by
        rw [cumprod_length, List.length_map, List.length_reverse]
        omega
      rw [cumprod_getElem _ _ (by omega)]
      have hlen4 : (cumprod (List.map (forward_factor_discrete events) D.reverse)).length
          = D.length := by
        rw [cumprod_length, List.length_map, List.length_reverse]
      rw [hlen4]
      have harith : D.length - 1 - i + 1 = D.length - i := by omega
      rw [harith]
      rw [List.map_reverse]
      rw [List.take_reverse]
      rw [List.prod_reverse]
      rw [List.length_map]
      have harith2 : D.length - (D.length - i) = i := by omega
      rw [harith2]
      rw [List.map_drop]
    · have hzlen : i < (D.zip (cumprod (D.map (back_factor_discrete events)))).length := by
        rw [List.length_zip, hlenb]
        omega
      rw [List.getElem?_eq_getElem hzlen, List.getElem_zip]
      congr 2
      have hi2 : i < (D.map (back_factor_discrete events)).length := by
        rw [List.length_map]
        exact hi
      rw [cumprod_getElem _ _ (by rw [cumprod_length]; exact hi2)]
      rw [List.map_take]

/-- C3 witness: two events whose per-day forward ratios are 2.0 (fore
factor 1/2 on date 2) and 1.5 (fore factor 2/3 on date 4): the forward
factor is 3.0 before both events, 1.5 between them, 1.0 after both;
with no events the series is identically 1.0. -/
theorem fetch_factors_cumulative_witness :
    (fetch_factors [1, 2, 3, 4, 5] [⟨2, 1 / 2, 2⟩, ⟨4, 2 / 3, 3 / 2⟩]).1[0]? = some (1, 3)
    ∧ (fetch_factors [1, 2, 3, 4, 5] [⟨2, 1 / 2, 2⟩, ⟨4, 2 / 3, 3 / 2⟩]).1[2]? = some (3, 3 / 2)
    ∧ (fetch_factors [1, 2, 3, 4, 5] [⟨2, 1 / 2, 2⟩, ⟨4, 2 / 3, 3 / 2⟩]).1[4]? = some (5, 1)
    ∧ (fetch_factors [1, 2, 3] []).1[1]? = some (2, 1)
    ∧ (fetch_factors [1, 2, 3] []).2[1]? = some (2, 1) := by
  refine ⟨?_, ?_, ?_, ?_, ?_⟩
  · refine (fetch_factors_cumulative [1, 2, 3, 4, 5] [⟨2, 1 / 2, 2⟩, ⟨4, 2 / 3, 3 / 2⟩]
      (by decide) 0 (by decide)).1.trans ?_
    norm_num [skeleton_days, sortLeBy, List.insertionSort, List.orderedInsert,
      forward_factor_discrete, List.find?]
  · refine (fetch_factors_cumulative [1, 2, 3, 4, 5] [⟨2, 1 / 2, 2⟩, ⟨4, 2 / 3, 3 / 2⟩]
      (by decide) 2 (by decide)).1.trans ?_
    norm_num [skeleton_days, sortLeBy, List.insertionSort, List.orderedInsert,
      forward_factor_discrete, List.find?]
  · refine (fetch_factors_cumulative [1, 2, 3, 4, 5] [⟨2, 1 / 2, 2⟩, ⟨4, 2 / 3, 3 / 2⟩]
      (by decide) 4 (by decide)).1.trans ?_
    norm_num [skeleton_days, sortLeBy, List.insertionSort, List.orderedInsert,
      forward_factor_discrete, List.find?]
  · refine (fetch_factors_cumulative [1, 2, 3] [] (by decide) 1 (by decide)).1.trans ?_
    norm_num [skeleton_days, sortLeBy, List.insertionSort, List.orderedInsert,
      forward_factor_discrete, List.find?]
  · refine (fetch_factors_cumulative [1, 2, 3] [] (by decide) 1 (by decide)).2.trans ?_
    norm_num [skeleton_days, sortLeBy, List.insertionSort, List.orderedInsert,
      back_factor_discrete, List.find?]

/-! ### C10: upsert_bars is insert-only on the (symbol, trade_date) key -/

theorem upsert_bars_extends (inc t : List BarRow) :
    ∃ suf, upsert_bars inc t = t ++ suf := by
  induction inc generalizing t with
  | nil => exact ⟨[], by simp [upsert_bars]⟩
  | cons r rest ih =>
    unfold upsert_bars
    rw [List.foldl_cons]
    obtain ⟨suf, hsuf⟩ := ih (if t.any (fun x => sameKey x r) then t else t ++ [r])
    unfold upsert_bars at hsuf
    by_cases h : t.any (fun x => sameKey x r)
    · refine ⟨suf, ?_⟩
      rw [if_pos h] at hsuf ⊢
      exact hsuf
    · refine ⟨r :: suf, ?_⟩
      rw [if_neg h] at hsuf ⊢
      rw [hsuf, List.append_assoc]
      rfl

theorem upsert_bars_key_present (inc t : List BarRow) :
    ∀ r ∈ inc, (upsert_bars inc t).any (fun x => sameKey x r) = true := by
  induction inc generalizing t with
  | nil => simp
  | cons a rest ih =>
    intro r hr
    unfold upsert_bars
    rw [List.foldl_cons]
    rcases List.mem_cons.mp hr with rfl | hrest
    · have hacc : (if t.any (fun x => sameKey x r) then t else t ++ [r]).any
          (fun x => sameKey x r) = true := by
        split
        · assumption
        · rw [List.any_append]
          have h2 : List.any [r] (fun x => sameKey x r) = true := by
            simp [sameKey]
          rw [h2, Bool.or_true]
      obtain ⟨suf, hsuf⟩ :=
        upsert_bars_extends rest (if t.any (fun x => sameKey x r) then t else t ++ [r])
      unfold upsert_bars at hsuf
      rw [hsuf, List.any_append, hacc, Bool.true_or]
    · exact ih _ r hrest

theorem upsert_bars_nop (inc l : List BarRow)
    (h : ∀ r ∈ inc, l.any (fun x => sameKey x r) = true) :
    upsert_bars inc l = l := by
  induction inc generalizing l with
  | nil => rfl
  | cons a rest ih =>
    unfold upsert_bars
    rw [List.foldl_cons, if_pos (h a (List.mem_cons_self a rest))]
    exact ih l (fun r hr => h r (List.mem_cons_of_mem a hr))

/-- C10. `INSERT ... ON CONFLICT (symbol, trade_date) DO NOTHING`:
for every key already present, the stored row (first row with that
key) is unchanged by an upsert, and upserting the same batch twice
equals upserting it once. -/
theorem upsert_bars_on_conflict_do_nothing (incoming table : List BarRow) :
    (∀ (k v : BarRow), table.find? (fun x => sameKey x k) = some v →
      (upsert_bars incoming table).find? (fun x => sameKey x k) = some v)
    ∧ upsert_bars incoming (upsert_bars incoming table) = upsert_bars incoming table := by
  constructor
  · intro k v hv
    obtain ⟨suf, hsuf⟩ := upsert_bars_extends incoming table
    rw [hsuf, List.find?_append, hv]
    rfl
  · exact upsert_bars_nop incoming (upsert_bars incoming table)
      (fun r hr => upsert_bars_key_present incoming table r hr)

/-- C10 witness: a batch that collides (twice) with a stored row
leaves the stored OHLCV intact and is idempotent. -/
theorem upsert_bars_on_conflict_do_nothing_witness :
    ((upsert_bars [⟨"A", 1, 1, 1, 1, 1, 5⟩, ⟨"A", 1, 9, 9, 9, 9, 9⟩]
        [⟨"A", 1, 2, 2, 2, 2, 7⟩]).find?
        (fun x => sameKey x ⟨"A", 1, 0, 0, 0, 0, 0⟩) = some ⟨"A", 1, 2, 2, 2, 2, 7⟩)
    ∧ upsert_bars [⟨"A", 1, 1, 1, 1, 1, 5⟩, ⟨"A", 1, 9, 9, 9, 9, 9⟩]
        (upsert_bars [⟨"A", 1, 1, 1, 1, 1, 5⟩, ⟨"A", 1, 9, 9, 9, 9, 9⟩]
          [⟨"A", 1, 2, 2, 2, 2, 7⟩])
      = upsert_bars [⟨"A", 1, 1, 1, 1, 1, 5⟩, ⟨"A", 1, 9, 9, 9, 9, 9⟩]
          [⟨"A", 1, 2, 2, 2, 2, 7⟩] := by
  have h := upsert_bars_on_conflict_do_nothing
    [⟨"A", 1, 1, 1, 1, 1, 5⟩, ⟨"A", 1, 9, 9, 9, 9, 9⟩] [⟨"A", 1, 2, 2, 2, 2, 7⟩]
  exact ⟨h.1 ⟨"A", 1, 0, 0, 0, 0, 0⟩ ⟨"A", 1, 2, 2, 2, 2, 7⟩ rfl, h.2⟩

end AIQuant
